import Mathlib

/-!
Verification of the paragraph segmentation algorithm (`detectParagraphs` of
`knowledge-base.service`) against its natural-language specification.

The JavaScript source is shallowly embedded over `List Char`:
strings become `List Char`, the JS regex replacements become explicit
scanning functions with ECMAScript semantics (non-overlapping left-to-right
global replacement, greedy quantifiers, `\d` = ASCII digits, `\s` = the JS
whitespace set, `\W` = complement of `[A-Za-z0-9_]`, `.` = any character
except line terminators), and `String.prototype.trim` trims the JS
whitespace set from both ends.
-/

set_option maxHeartbeats 1000000

/-- JS horizontal whitespace matched by the regex `[ \t]`. -/
def isSpT (c : Char) : Bool := c = ' ' || c = '\t'

/-- The ECMAScript whitespace set: what `\s` matches and what
`String.prototype.trim` removes (WhiteSpace plus LineTerminator). -/
def jsWs (c : Char) : Bool :=
  c = ' ' || c = '\t' || c = '\n' || c = '\r' || c.val = 11 || c.val = 12 ||
  c.val = 0xa0 || c.val = 0x1680 || (0x2000 ≤ c.val && c.val ≤ 0x200a) ||
  c.val = 0x2028 || c.val = 0x2029 || c.val = 0x202f || c.val = 0x205f ||
  c.val = 0x3000 || c.val = 0xfeff

/-- `text.replace(/\r\n/g, '\n')`: one non-overlapping left-to-right pass
replacing each CRLF pair by LF. -/
def replCRLF : List Char → List Char
  | [] => []
  | [c] => [c]
  | a :: b :: rest =>
    if a = '\r' ∧ b = '\n' then '\n' :: replCRLF rest
    else a :: replCRLF (b :: rest)

/-- Helper for `replace(/\n{3,}/g, '\n\n')`: `k` counts the newlines of the
run currently being scanned; a finished run of length `k` is emitted as
`min k 2` newlines (runs of 1 or 2 stay, runs of 3 or more become 2). -/
def collapseNLAux : Nat → List Char → List Char
  | k, [] => List.replicate (min k 2) '\n'
  | k, c :: rest =>
    if c = '\n' then collapseNLAux (k + 1) rest
    else List.replicate (min k 2) '\n' ++ c :: collapseNLAux 0 rest

/-- `text.replace(/\n{3,}/g, '\n\n')`. -/
def collapseNL (l : List Char) : List Char := collapseNLAux 0 l

/-- Helper for `replace(/[ \t]+/g, ' ')`: `pending` records whether a
space/tab run is open; a finished run is emitted as a single space. -/
def collapseSpAux : Bool → List Char → List Char
  | pending, [] => if pending then [' '] else []
  | pending, c :: rest =>
    if isSpT c then collapseSpAux true rest
    else (if pending then [' '] else []) ++ c :: collapseSpAux false rest

/-- `text.replace(/[ \t]+/g, ' ')`. -/
def collapseSp (l : List Char) : List Char := collapseSpAux false l

/-- `String.prototype.trim`: drop JS whitespace from both ends. -/
def trimList (l : List Char) : List Char :=
  ((l.dropWhile jsWs).reverse.dropWhile jsWs).reverse

/-- The whole normalization chain opening `detectParagraphs`:
CRLF→LF, collapse 3+ newlines to 2, collapse space/tab runs to one
space, trim the whole text. -/
def normalizeText (l : List Char) : List Char :=
  trimList (collapseSp (collapseNL (replCRLF l)))

/-- `normalizedText.split(/\n/)` — like JS `split`, the empty string yields
`[""]` and every separator opens a new (possibly empty) field. -/
def splitLines : List Char → List (List Char)
  | [] => [[]]
  | c :: rest =>
    if c = '\n' then [] :: splitLines rest
    else
      match splitLines rest with
      | [] => [[c]]
      | l :: ls => (c :: l) :: ls

/-- ASCII digit, what `\d` matches in a non-unicode JS regex. -/
def isAsciiDigit (c : Char) : Bool := '0' ≤ c && c ≤ '9'

/-- The sentence-terminating marks `。！？：；.!?:;` of the source. -/
def isSentenceEnd (c : Char) : Bool :=
  c = '。' || c = '！' || c = '？' || c = '：' || c = '；' ||
  c = '.' || c = '!' || c = '?' || c = ':' || c = ';'

/-- `s.endsWith('。') || ... || s.endsWith(';')`, equivalently the regex
`[。！？：；.!?:;]$`. -/
def endsSentence (l : List Char) : Bool :=
  match l.getLast? with
  | some c => isSentenceEnd c
  | none => false

/-- The regex `^[\d•\-\*]` of the source. -/
def startsListMarker (l : List Char) : Bool :=
  match l with
  | c :: _ => isAsciiDigit c || c = '•' || c = '-' || c = '*'
  | [] => false

/-- The CJK numerals of the chapter-heading regex. -/
def isCnNumeral (c : Char) : Bool :=
  c = '一' || c = '二' || c = '三' || c = '四' || c = '五' || c = '六' ||
  c = '七' || c = '八' || c = '九' || c = '十' || c = '百' || c = '千' || c = '万'

/-- The section characters `章节篇` of the chapter-heading regex. -/
def isCnSection (c : Char) : Bool := c = '章' || c = '节' || c = '篇'

/-- The regex `^(第[一二三四五六七八九十百千万]+[章节篇]|[\d]+[\.\、])` of the
source (its two branches are translated with `takeWhile` since the
repeated class is disjoint from the follower class). -/
def structuralMarker (l : List Char) : Bool :=
  (match l with
   | '第' :: rest =>
     !(rest.takeWhile isCnNumeral).isEmpty &&
     (match rest.dropWhile isCnNumeral with
      | d :: _ => isCnSection d
      | [] => false)
   | _ => false) ||
  (!(l.takeWhile isAsciiDigit).isEmpty &&
   (match l.dropWhile isAsciiDigit with
    | d :: _ => d = '.' || d = '、'
    | [] => false))

/-- `paragraphs.push(current)` guarded by `if (current)`. -/
def pushIf (cur : List Char) (l : List (List Char)) : List (List Char) :=
  if cur = [] then l else cur :: l

/-- The line loop of `detectParagraphs`.  `prev` is the previous *raw*
(untrimmed) line `lines[i-1]` (`none` at `i = 0`), `cur` is the
`currentParagraph` accumulator, and the third argument is the remaining
raw lines, current one first.  Emitted paragraphs are returned in order,
including the final flush of a non-empty accumulator. -/
def buildParas : Option (List Char) → List Char → List (List Char) → List (List Char)
  | _, cur, [] => pushIf cur []
  | prev, cur, raw :: rest =>
    let line := trimList raw
    if line = [] then
      pushIf cur (buildParas (some raw) [] rest)
    else
      if ((cur ≠ [] ∧ endsSentence cur = true) ∨ startsListMarker line = true ∨
          (line.length < 20 ∧ prev.isSome = true ∧ 40 < (prev.getD []).length) ∨
          structuralMarker line = true) ∧ cur ≠ [] then
        cur :: buildParas (some raw) line rest
      else
        if rest ≠ [] ∧ endsSentence line = false ∧
           structuralMarker (trimList (rest.headD [])) = false then
          buildParas (some raw) (if cur = [] then line else cur ++ ' ' :: line) rest
        else
          pushIf cur (buildParas (some raw) line rest)

/-- Word characters `[A-Za-z0-9_]`, what `\w` matches (so `\W` is its
complement). -/
def isWordChar (c : Char) : Bool :=
  ('A' ≤ c && c ≤ 'Z') || ('a' ≤ c && c ≤ 'z') || isAsciiDigit c || c = '_'

/-- The character class `[\d\s\W]` of the noise regex. -/
def inNoiseClass (c : Char) : Bool := isAsciiDigit c || jsWs c || !(isWordChar c)

/-- The regex test `/^[\d\s\W]+$/.test(p)`: non-empty and every character in
the class. -/
def noiseOnly (p : List Char) : Bool := !p.isEmpty && p.all inNoiseClass

/-- ECMAScript line terminators, the characters `.` does not match. -/
def isLineTerm (c : Char) : Bool :=
  c = '\n' || c = '\r' || c.val = 0x2028 || c.val = 0x2029

/-- The regex test `/(.)\1{10,}/.test(p)`: some position holds a
non-line-terminator character followed by at least 10 copies of itself. -/
def hasLongRun : List Char → Bool
  | [] => false
  | c :: rest =>
    (!(isLineTerm c) && decide (10 ≤ (rest.takeWhile (fun d => d = c)).length)) ||
    hasLongRun rest

/-- The predicate of the final `.filter(...)`: a paragraph is kept when it
is at least 10 characters long, not pure digit/whitespace/symbol noise,
and has no 11+ run of a repeated character. -/
def keepPara (p : List Char) : Bool :=
  decide (10 ≤ p.length) && !(noiseOnly p) && !(hasLongRun p)

/-- The paragraphs accumulated by the line loop, before the final
`map(trim).filter(...)` post-processing. -/
def rawParagraphs (l : List Char) : List (List Char) :=
  buildParas none [] (splitLines (normalizeText l))

/-- `detectParagraphs` over `List Char`: the loop output, trimmed
per-paragraph and filtered. -/
def detectParagraphsL (l : List Char) : List (List Char) :=
  ((rawParagraphs l).map trimList).filter keepPara

/-- `detectParagraphs(text)` at the `String` interface. -/
def detectParagraphs (text : String) : List String :=
  (detectParagraphsL text.data).map fun p => ⟨p⟩

/-- The trimmed paragraph list right before the noise filter
(`paragraphs.map(p => p.trim())`). -/
def preFilterParagraphs (text : String) : List String :=
  ((rawParagraphs text.data).map trimList).map fun p => ⟨p⟩

/-- ASCII letter or underscore: exactly the characters NOT matched by the
class `[\d\s\W]` of the noise regex. -/
def isWordLetter (c : Char) : Bool :=
  ('A' ≤ c && c ≤ 'Z') || ('a' ≤ c && c ≤ 'z') || c = '_'

/-- Every carriage return of the list is the first half of a CRLF pair. -/
def crOk : List Char → Bool
  | [] => true
  | [c] => decide (c ≠ '\r')
  | a :: b :: rest =>
    if a = '\r' then decide (b = '\n') && crOk rest else crOk (b :: rest)

/-- The list starts with two newline characters. -/
def nl2 : List Char → Bool
  | a :: b :: _ => decide (a = '\n') && decide (b = '\n')
  | _ => false

/-- No three consecutive newline characters anywhere: the fixed points of
`collapseNL`. -/
def noTriple : List Char → Bool
  | [] => true
  | a :: rest => !(decide (a = '\n') && nl2 rest) && noTriple rest

/-- The list starts with a space. -/
def spHead : List Char → Bool
  | c :: _ => decide (c = ' ')
  | [] => false

/-- No tab anywhere and no two consecutive spaces: the fixed points of
`collapseSp`. -/
def spOk : List Char → Bool
  | [] => true
  | a :: rest => !(decide (a = '\t')) && !(decide (a = ' ') && spHead rest) && spOk rest

/-- The spec-side reading of the repeated-character noise rule, amended to
ECMAScript `.` semantics: some non-line-terminator character occurs 11 or
more times consecutively. -/
def SpecLongRun (p : List Char) : Prop :=
  ∃ c : Char, isLineTerm c = false ∧ List.replicate 11 c <:+: p

/-- The spec's literal repeated-character rule (any character, including
line terminators): some character occurs 11+ times consecutively. -/
def ClaimLongRun (p : List Char) : Prop :=
  ∃ c : Char, List.replicate 11 c <:+: p

/-- A trimmed paragraph that the length and noise rules keep but that holds
a run of eleven carriage returns: the `.` of `/(.)\1{10,}/` cannot match
`\r`, so the code keeps it. -/
def crRunPara : List Char := ['a', 'b'] ++ List.replicate 11 '\r' ++ ['c', 'd']

/-! ### Concrete evaluations for the example-based claims -/

/-- C1: the claim asserts the two-line continuation input yields ONE joined
paragraph; the code in fact returns the two lines as separate paragraphs
(the continuation branch requires a following line to exist, and the
second line is the last). -/
theorem c1_counterexample :
    detectParagraphs
      "This is a long line that continues\nonto the next line without punctuation." ≠
    ["This is a long line that continues onto the next line without punctuation."] := by
  decide

/-- C1 (amended): on that input `detectParagraphs` returns exactly two
paragraphs, the two lines separately, unjoined. -/
theorem c1_amended :
    detectParagraphs
      "This is a long line that continues\nonto the next line without punctuation." =
    ["This is a long line that continues",
     "onto the next line without punctuation."] := by
  decide

/-- C2: the claim asserts `"A.\n\nB."` yields the two paragraphs `"A."` and
`"B."`; in fact both are dropped by the `length < 10` post-filter and the
result is empty. -/
theorem c2_counterexample :
    detectParagraphs "A.\n\nB." ≠ ["A.", "B."] := by
  decide

/-- C2 (amended): the blank line does split the input into the two
pre-filter paragraphs `"A."` and `"B."`, but the `length < 10` filter then
drops both, so the final result is the empty list. -/
theorem c2_amended :
    preFilterParagraphs "A.\n\nB." = ["A.", "B."] ∧
    detectParagraphs "A.\n\nB." = [] := by
  constructor <;> decide

/-- C8: the list-marker boundary splits before each numbered item, giving
exactly the three claimed paragraphs. -/
theorem c8_list_marker_boundary :
    detectParagraphs "Intro text.\n1. First item\n2. Second item" =
    ["Intro text.", "1. First item", "2. Second item"] := by
  decide

/-! ### Generic lemmas about the embedded string operations -/

theorem dropWhile_head_false {q : Char → Bool} :
    ∀ (l : List Char) {c u}, l.dropWhile q = c :: u → q c = false := by
  intro l
  induction l with
  | nil => intro c u h; simp [List.dropWhile] at h
  | cons a t ih =>
    intro c u h
    rw [List.dropWhile_cons] at h
    split at h
    · exact ih h
    · rename_i hqa
      injection h with h1 _
      subst h1
      simpa using hqa

theorem dropWhile_dropWhile {q : Char → Bool} (l : List Char) :
    (l.dropWhile q).dropWhile q = l.dropWhile q := by
  cases h : l.dropWhile q with
  | nil => simp
  | cons c u =>
    have hc := dropWhile_head_false l h
    rw [List.dropWhile_cons]
    simp [hc]

/-- `trimList l` followed by the dropped tail is exactly the front-trimmed
list: the right trim only removes a suffix. -/
theorem trimList_front (l : List Char) :
    ∃ t, trimList l ++ t = l.dropWhile jsWs := by
  obtain ⟨s, hs⟩ := List.dropWhile_suffix (l := (l.dropWhile jsWs).reverse) jsWs
  refine ⟨s.reverse, ?_⟩
  have h2 := congrArg List.reverse hs
  simpa [trimList, List.reverse_append] using h2

theorem trimList_head_false {l : List Char} {c u} (h : trimList l = c :: u) :
    jsWs c = false := by
  obtain ⟨t, ht⟩ := trimList_front l
  rw [h] at ht
  exact dropWhile_head_false l (by simpa using ht.symm)

theorem trimList_trimList (l : List Char) : trimList (trimList l) = trimList l := by
  have h1 : (trimList l).dropWhile jsWs = trimList l := by
    cases h : trimList l with
    | nil => simp
    | cons c u => rw [List.dropWhile_cons, trimList_head_false h]; simp
  have h2 : (trimList l).reverse = ((l.dropWhile jsWs).reverse).dropWhile jsWs := by
    simp [trimList]
  show (((trimList l).dropWhile jsWs).reverse.dropWhile jsWs).reverse = trimList l
  rw [h1, h2, dropWhile_dropWhile]
  simp [trimList]

theorem mem_trimList {l : List Char} {c} (h : c ∈ trimList l) : c ∈ l := by
  obtain ⟨t, ht⟩ := trimList_front l
  have h1 : c ∈ l.dropWhile jsWs := ht ▸ List.mem_append_left _ h
  exact (List.dropWhile_suffix jsWs).subset h1

theorem mem_replCRLF : ∀ (l : List Char) (c : Char), c ∈ replCRLF l → c = '\n' ∨ c ∈ l
  | [], c, h => by simp [replCRLF] at h
  | [a], c, h => by simp [replCRLF] at h; simp [h]
  | a :: b :: rest, c, h => by
    simp only [replCRLF] at h
    split at h
    · rcases List.mem_cons.mp h with h | h
      · exact Or.inl h
      · rcases mem_replCRLF rest c h with h | h
        · exact Or.inl h
        · exact Or.inr (by simp [h])
    · rcases List.mem_cons.mp h with h | h
      · exact Or.inr (by simp [h])
      · rcases mem_replCRLF (b :: rest) c h with h | h
        · exact Or.inl h
        · exact Or.inr (by rcases List.mem_cons.mp h with h | h <;> simp [h])

theorem mem_collapseNLAux :
    ∀ (l : List Char) (k : Nat) (c : Char), c ∈ collapseNLAux k l → c = '\n' ∨ c ∈ l := by
  intro l
  induction l with
  | nil =>
    intro k c h
    simp only [collapseNLAux] at h
    exact Or.inl (List.eq_of_mem_replicate h)
  | cons a t ih =>
    intro k c h
    simp only [collapseNLAux] at h
    split at h
    · rcases ih _ _ h with h | h
      · exact Or.inl h
      · exact Or.inr (by simp [h])
    · rw [List.mem_append] at h
      rcases h with h | h
      · exact Or.inl (List.eq_of_mem_replicate h)
      · rcases List.mem_cons.mp h with h | h
        · exact Or.inr (by simp [h])
        · rcases ih _ _ h with h | h
          · exact Or.inl h
          · exact Or.inr (by simp [h])

theorem mem_collapseSpAux :
    ∀ (l : List Char) (b : Bool) (c : Char), c ∈ collapseSpAux b l → c = ' ' ∨ c ∈ l := by
  intro l
  induction l with
  | nil =>
    intro b c h
    simp only [collapseSpAux] at h
    split at h <;> simp at h
    exact Or.inl h
  | cons a t ih =>
    intro b c h
    simp only [collapseSpAux] at h
    split at h
    · rcases ih _ _ h with h | h
      · exact Or.inl h
      · exact Or.inr (by simp [h])
    · rw [List.mem_append] at h
      rcases h with h | h
      · split at h <;> simp at h
        exact Or.inl h
      · rcases List.mem_cons.mp h with h | h
        · exact Or.inr (by simp [h])
        · rcases ih _ _ h with h | h
          · exact Or.inl h
          · exact Or.inr (by simp [h])

/-- Every stage of normalization maps an all-whitespace text to an
all-whitespace text, and the final trim then erases it completely. -/
theorem normalizeText_of_ws {l : List Char} (h : ∀ c ∈ l, jsWs c = true) :
    normalizeText l = [] := by
  have h1 : ∀ c ∈ replCRLF l, jsWs c = true := by
    intro c hc
    rcases mem_replCRLF l c hc with rfl | hc
    · decide
    · exact h c hc
  have h2 : ∀ c ∈ collapseNL (replCRLF l), jsWs c = true := by
    intro c hc
    rcases mem_collapseNLAux _ 0 c hc with rfl | hc
    · decide
    · exact h1 c hc
  have h3 : ∀ c ∈ collapseSp (collapseNL (replCRLF l)), jsWs c = true := by
    intro c hc
    rcases mem_collapseSpAux _ false c hc with rfl | hc
    · decide
    · exact h2 c hc
  have h4 : (collapseSp (collapseNL (replCRLF l))).dropWhile jsWs = [] :=
    List.dropWhile_eq_nil_iff.mpr h3
  simp [normalizeText, trimList, h4]

/-! ### C3, C4, C9, C10 -/

/-- C3: `detectParagraphs` is a total Lean function by construction, and on
any input consisting only of JS whitespace (in particular the empty
string) it returns the empty list. -/
theorem c3_whitespace_empty :
    ∀ s : String, (∀ c ∈ s.data, jsWs c = true) → detectParagraphs s = [] := by
  intro s h
  have hn : normalizeText s.data = [] := normalizeText_of_ws h
  simp only [detectParagraphs, detectParagraphsL, rawParagraphs, hn]
  rfl

/-- C3 witness: the empty string and a concrete whitespace-only string. -/
theorem c3_whitespace_empty_witness :
    detectParagraphs "" = [] ∧ detectParagraphs " \t\n  " = [] :=
  ⟨c3_whitespace_empty "" (by decide), c3_whitespace_empty " \t\n  " (by decide)⟩

/-- C4: the final output is an order-preserving subsequence (`Sublist`) of
the trimmed pre-filter paragraph list, and the trim stage is elementwise
(it neither splits nor merges: the list length is unchanged), so the
filter stage only drops or keeps whole paragraphs in original order. -/
theorem c4_order_preserving_subsequence :
    ∀ s : String,
      List.Sublist (detectParagraphsL s.data) ((rawParagraphs s.data).map trimList) ∧
      ((rawParagraphs s.data).map trimList).length = (rawParagraphs s.data).length := by
  intro s
  exact ⟨List.filter_sublist _, by simp⟩

/-- C9: every emitted paragraph is non-empty, fixed by trimming, and at
least 10 characters long. -/
theorem c9_output_invariants :
    ∀ (s : String) (p : List Char), p ∈ detectParagraphsL s.data →
      p ≠ [] ∧ trimList p = p ∧ 10 ≤ p.length := by
  intro s p hp
  unfold detectParagraphsL at hp
  rw [List.mem_filter] at hp
  obtain ⟨hmem, hkeep⟩ := hp
  rw [List.mem_map] at hmem
  obtain ⟨q, -, rfl⟩ := hmem
  simp only [keepPara, Bool.and_eq_true, decide_eq_true_eq] at hkeep
  obtain ⟨⟨hlen, -⟩, -⟩ := hkeep
  refine ⟨?_, trimList_trimList q, hlen⟩
  intro hnil
  rw [hnil] at hlen
  simp at hlen

/-- C9 witness: a concrete output paragraph of a concrete run. -/
theorem c9_output_invariants_witness :
    ("Intro text.".data ∈ detectParagraphsL "Intro text.\n1. First item".data) ∧
    ("Intro text.".data ≠ [] ∧ trimList "Intro text.".data = "Intro text.".data ∧
      10 ≤ "Intro text.".data.length) :=
  ⟨by decide, c9_output_invariants "Intro text.\n1. First item" _ (by decide)⟩

/-- From failing the class `[\d\s\W]`, a character is an ASCII letter or an
underscore. -/
theorem wordLetter_of_not_noise {c : Char} (h : inNoiseClass c = false) :
    isWordLetter c = true := by
  simp only [inNoiseClass, isWordChar, isAsciiDigit, Bool.or_eq_false_iff,
    Bool.not_eq_false', Bool.or_eq_true, Bool.and_eq_true, decide_eq_true_eq,
    Bool.and_eq_false_iff, decide_eq_false_iff_not] at h
  simp only [isWordLetter, Bool.or_eq_true, Bool.and_eq_true, decide_eq_true_eq]
  tauto

/-- C10: every emitted paragraph holds at least one ASCII letter or
underscore; a long paragraph whose characters are all CJK (plus
punctuation) is therefore never emitted, as the concrete conjunct shows. -/
theorem c10_word_letter_required :
    (∀ (s : String) (p : List Char), p ∈ detectParagraphsL s.data →
      ∃ c ∈ p, isWordLetter c = true) ∧
    detectParagraphs "这是一个很长的中文段落，其中完全没有西文字母。" = [] := by
  constructor
  · intro s p hp
    unfold detectParagraphsL at hp
    rw [List.mem_filter] at hp
    obtain ⟨hmem, hkeep⟩ := hp
    simp only [keepPara, Bool.and_eq_true, decide_eq_true_eq, Bool.not_eq_true'] at hkeep
    obtain ⟨⟨hlen, hnoise⟩, -⟩ := hkeep
    have hne : p ≠ [] := by
      intro hnil
      rw [hnil] at hlen
      simp at hlen
    simp only [noiseOnly, Bool.and_eq_false_iff, Bool.not_eq_false', List.isEmpty_eq_true] at hnoise
    rcases hnoise with h | h
    · exact absurd h hne
    · rw [List.all_eq_false] at h
      obtain ⟨c, hc, hcn⟩ := h
      exact ⟨c, hc, wordLetter_of_not_noise (Bool.not_eq_true _ ▸ (by simpa using hcn))⟩
  · decide

/-- C10 witness: a concrete paragraph of a concrete run together with its
guaranteed word letter. -/
theorem c10_word_letter_required_witness :
    ∃ c ∈ "Intro text.".data, isWordLetter c = true :=
  c10_word_letter_required.1 "Intro text.\n1. First item" _ (by decide)

/-! ### C6: line-ending conversion -/

theorem replCRLF_no_cr : ∀ l : List Char, crOk l = true → '\r' ∉ replCRLF l
  | [], _ => by simp [replCRLF]
  | [c], h => by
    simp only [crOk, decide_eq_true_eq] at h
    simp only [replCRLF, List.mem_singleton]
    exact fun hc => h hc.symm
  | a :: b :: rest, h => by
    rw [crOk] at h
    rw [replCRLF]
    split
    · rename_i hab
      rw [if_pos hab.1, Bool.and_eq_true] at h
      intro hm
      rcases List.mem_cons.mp hm with hm | hm
      · exact absurd hm (by decide)
      · exact replCRLF_no_cr rest h.2 hm
    · rename_i hab
      by_cases ha : a = '\r'
      · rw [if_pos ha, Bool.and_eq_true] at h
        exact absurd ⟨ha, of_decide_eq_true h.1⟩ hab
      · rw [if_neg ha] at h
        intro hm
        rcases List.mem_cons.mp hm with hm | hm
        · exact ha hm.symm
        · exact replCRLF_no_cr (b :: rest) h hm

/-- C6: the claim asserts normalization removes every carriage return; a
lone CR (not part of a CRLF pair) survives, as on the input `"a\rb"`. -/
theorem c6_counterexample : '\r' ∈ normalizeText "a\rb".data := by decide

/-- C6 (amended): the normalization converts CRLF pairs (and LF is already
canonical), so whenever every CR of the input is the first half of a CRLF
pair, the normalized text contains no carriage return; lone CRs are not
converted. -/
theorem c6_amended :
    ∀ l : List Char, crOk l = true → '\r' ∉ normalizeText l := by
  intro l h hm
  unfold normalizeText at hm
  have h1 := mem_trimList hm
  rcases mem_collapseSpAux _ false _ h1 with h2 | h2
  · exact absurd h2 (by decide)
  · rcases mem_collapseNLAux _ 0 _ h2 with h3 | h3
    · exact absurd h3 (by decide)
    · exact replCRLF_no_cr l h h3

/-- C6 witness: a concrete CRLF input normalizes without any CR. -/
theorem c6_amended_witness :
    crOk "x\r\ny".data = true ∧ '\r' ∉ normalizeText "x\r\ny".data :=
  ⟨by decide, c6_amended _ (by decide)⟩

/-! ### C5: the post-filter characterization -/

theorem withinConsSplit {l t : List Char} {a : Char} (h : l <:+: a :: t) :
    l <+: a :: t ∨ l <:+: t := by
  obtain ⟨s, u, hsu⟩ := h
  cases s with
  | nil => exact Or.inl ⟨u, by simpa using hsu⟩
  | cons x s' =>
    right
    refine ⟨s', u, ?_⟩
    simp only [List.cons_append] at hsu
    injection hsu with _ h2

theorem takeWhile_replicate_ge {c : Char} :
    ∀ (n : Nat) (u : List Char),
      n ≤ ((List.replicate n c ++ u).takeWhile fun d => d = c).length := by
  intro n
  induction n with
  | zero => intro u; simp
  | succ m ih =>
    intro u
    rw [List.replicate_succ, List.cons_append, List.takeWhile_cons]
    simp only [decide_True, if_true, List.length_cons, Nat.add_le_add_iff_right]
    exact ih u

theorem hasLongRun_iff : ∀ p : List Char, (hasLongRun p = true ↔ SpecLongRun p) := by
  intro p
  induction p with
  | nil =>
    simp only [hasLongRun, Bool.false_eq_true, false_iff]
    rintro ⟨c, -, hinf⟩
    have := hinf.length_le
    simp at this
  | cons a rest ih =>
    constructor
    · intro h
      simp only [hasLongRun, Bool.or_eq_true, Bool.and_eq_true, Bool.not_eq_true',
        decide_eq_true_eq] at h
      rcases h with ⟨hterm, hcnt⟩ | h
      · have htwrep : rest.takeWhile (fun d => d = a) =
            List.replicate (rest.takeWhile (fun d => d = a)).length a := by
          rw [List.eq_replicate_iff]
          exact ⟨rfl, fun b hb => by simpa using List.mem_takeWhile_imp hb⟩
        have hsplit : rest.takeWhile (fun d => d = a) ++
            rest.dropWhile (fun d => d = a) = rest :=
          List.takeWhile_append_dropWhile _ _
        have h10 : List.replicate 10 a ++
            List.replicate ((rest.takeWhile (fun d => d = a)).length - 10) a =
            rest.takeWhile (fun d => d = a) := by
          rw [← List.replicate_add, Nat.add_sub_cancel' hcnt, ← htwrep]
        refine ⟨a, hterm, [],
          List.replicate ((rest.takeWhile (fun d => d = a)).length - 10) a ++
            rest.dropWhile (fun d => d = a), ?_⟩
        rw [List.nil_append, List.replicate_succ, List.cons_append,
          ← List.append_assoc, h10, hsplit]
      · obtain ⟨c, hterm, s, u, hsu⟩ := ih.mp h
        refine ⟨c, hterm, a :: s, u, ?_⟩
        simp only [List.cons_append]
        rw [hsu]
    · rintro ⟨c, hterm, hinf⟩
      rcases withinConsSplit hinf with hpre | hinf'
      · obtain ⟨u, hu⟩ := hpre
        rw [List.replicate_succ, List.cons_append] at hu
        injection hu with h1 h2
        subst h1
        simp only [hasLongRun, Bool.or_eq_true, Bool.and_eq_true, Bool.not_eq_true',
          decide_eq_true_eq]
        left
        refine ⟨hterm, ?_⟩
        rw [← h2]
        exact takeWhile_replicate_ge 10 u
      · simp only [hasLongRun, Bool.or_eq_true]
        exact Or.inr (ih.mpr ⟨c, hterm, hinf'⟩)

/-- C5: the claim's "run of the same character, any character" reading is
refuted by a paragraph holding eleven carriage returns: the code's regex
dot cannot match a line terminator, so the paragraph is kept although the
claim demands it be dropped. -/
theorem c5_counterexample :
    ¬ (keepPara crRunPara = false ↔
        crRunPara.length < 10 ∨ (∀ c ∈ crRunPara, inNoiseClass c = true) ∨
        ClaimLongRun crRunPara) := by
  intro hiff
  have hrun : ClaimLongRun crRunPara := ⟨'\r', ['a', 'b'], ['c', 'd'], rfl⟩
  have hfalse := hiff.mpr (Or.inr (Or.inr hrun))
  have htrue : keepPara crRunPara = true := by decide
  rw [htrue] at hfalse
  exact absurd hfalse (by decide)

/-- C5 (amended): a trimmed paragraph is dropped iff its length is under
10, or it consists only of digits/whitespace/non-word symbols, or it holds
a run of 11+ copies of the same NON-LINE-TERMINATOR character; the three
concrete examples of the claim behave as stated. -/
theorem c5_amended :
    (∀ p : List Char, keepPara p = false ↔
        p.length < 10 ∨ (∀ c ∈ p, inNoiseClass c = true) ∨ SpecLongRun p) ∧
    keepPara "42".data = false ∧
    keepPara "----------------".data = false ∧
    keepPara "This is a valid paragraph with enough length.".data = true := by
  refine ⟨?_, by decide, by decide, by decide⟩
  intro p
  rw [keepPara]
  constructor
  · intro h
    rcases Bool.and_eq_false_iff.mp h with h | h
    · rcases Bool.and_eq_false_iff.mp h with h | h
      · left
        simpa using h
      · right; left
        have hno : noiseOnly p = true := by simpa using h
        rw [noiseOnly, Bool.and_eq_true] at hno
        exact fun c hc => List.all_eq_true.mp hno.2 c hc
    · right; right
      exact (hasLongRun_iff p).mp (by simpa using h)
  · intro h
    rcases h with h | h | h
    · apply Bool.and_eq_false_iff.mpr
      left
      apply Bool.and_eq_false_iff.mpr
      left
      simpa using Nat.not_le.mpr h
    · by_cases hp : p = []
      · subst hp; decide
      · apply Bool.and_eq_false_iff.mpr
        left
        apply Bool.and_eq_false_iff.mpr
        right
        have hno : noiseOnly p = true := by
          rw [noiseOnly, Bool.and_eq_true]
          exact ⟨by simpa using hp, List.all_eq_true.mpr h⟩
        simp [hno]
    · apply Bool.and_eq_false_iff.mpr
      right
      simp [(hasLongRun_iff p).mpr h]

/-- C5 witness: the amended characterization applied to the all-dashes
paragraph through its noise disjunct. -/
theorem c5_amended_witness :
    keepPara "................".data = false :=
  (c5_amended.1 "................".data).mpr (Or.inr (Or.inl (by decide)))

/-! ### C7: idempotence of normalization -/

theorem replCRLF_id_of_no_cr : ∀ l : List Char, '\r' ∉ l → replCRLF l = l
  | [], _ => rfl
  | [_], _ => rfl
  | a :: b :: rest, h => by
    have ha : a ≠ '\r' := by
      intro hh
      exact h (by rw [hh]; exact List.mem_cons_self _ _)
    rw [replCRLF, if_neg (fun hab => ha hab.1)]
    rw [replCRLF_id_of_no_cr (b :: rest) (fun hm => h (List.mem_cons_of_mem a hm))]

theorem no_cr_normalizeText {l : List Char} (h : '\r' ∉ l) : '\r' ∉ normalizeText l := by
  intro hm
  unfold normalizeText at hm
  have h1 := mem_trimList hm
  rcases mem_collapseSpAux _ false _ h1 with h2 | h2
  · exact absurd h2 (by decide)
  · rcases mem_collapseNLAux _ 0 _ h2 with h3 | h3
    · exact absurd h3 (by decide)
    · rcases mem_replCRLF _ _ h3 with h4 | h4
      · exact absurd h4 (by decide)
      · exact h h4

theorem noTriple_cons_ne {c : Char} {t : List Char} (h : c ≠ '\n') :
    noTriple (c :: t) = noTriple t := by
  simp [noTriple, h]

theorem noTriple_tail {a : Char} {t : List Char} (h : noTriple (a :: t) = true) :
    noTriple t = true := by
  rw [noTriple, Bool.and_eq_true] at h
  exact h.2

theorem nl2_cons_ne {c : Char} {t : List Char} (h : c ≠ '\n') : nl2 (c :: t) = false := by
  cases t <;> simp [nl2, h]

theorem noTriple_replicate_le2 {m : Nat} (h : m ≤ 2) :
    noTriple (List.replicate m '\n') = true := by
  interval_cases m <;> decide

theorem nl2_cons_cons {a b : Char} {t : List Char} :
    nl2 (a :: b :: t) = (decide (a = '\n') && decide (b = '\n')) := rfl

theorem noTriple_rep_cons {m : Nat} {c : Char} {z : List Char}
    (hm : m ≤ 2) (hc : c ≠ '\n') (hz : noTriple z = true) :
    noTriple (List.replicate m '\n' ++ c :: z) = true := by
  interval_cases m <;>
    simp [List.replicate_succ, noTriple, nl2_cons_cons, nl2_cons_ne hc, hz, hc]

theorem noTriple_collapseNLAux : ∀ (l : List Char) (k : Nat),
    noTriple (collapseNLAux k l) = true := by
  intro l
  induction l with
  | nil =>
    intro k
    rw [collapseNLAux]
    exact noTriple_replicate_le2 (Nat.min_le_right _ _)
  | cons a t ih =>
    intro k
    rw [collapseNLAux]
    split
    · exact ih (k + 1)
    · rename_i ha
      exact noTriple_rep_cons (Nat.min_le_right _ _) ha (ih 0)

theorem collapseNL_fix_bounded :
    ∀ (n : Nat) (l : List Char), l.length ≤ n → noTriple l = true → collapseNL l = l := by
  intro n
  induction n with
  | zero =>
    intro l hl _
    rw [Nat.le_zero, List.length_eq_zero] at hl
    subst hl
    rfl
  | succ n ih =>
    intro l hl h
    rcases l with _ | ⟨c, t⟩
    · rfl
    · by_cases hc : c = '\n'
      · subst hc
        rcases t with _ | ⟨d, u⟩
        · decide
        · by_cases hd : d = '\n'
          · subst hd
            rcases u with _ | ⟨e, v⟩
            · decide
            · by_cases he : e = '\n'
              · exfalso
                subst he
                simp [noTriple, nl2_cons_cons] at h
              · have hv : noTriple v = true :=
                  noTriple_tail (noTriple_tail (noTriple_tail h))
                have hrec := ih v (by simp at hl; omega) hv
                rw [collapseNL] at hrec ⊢
                simp [collapseNLAux, he, hrec]
          · have hu : noTriple u = true := noTriple_tail (noTriple_tail h)
            have hrec := ih u (by simp at hl; omega) hu
            rw [collapseNL] at hrec ⊢
            simp [collapseNLAux, hd, hrec]
      · have ht : noTriple t = true := noTriple_tail h
        have hrec := ih t (by simp at hl; omega) ht
        rw [collapseNL] at hrec ⊢
        simp [collapseNLAux, hc, hrec]

theorem collapseNL_fix (l : List Char) (h : noTriple l = true) : collapseNL l = l :=
  collapseNL_fix_bounded l.length l le_rfl h

theorem collapseSpAux_true_eq : ∀ l : List Char,
    collapseSpAux true l = ' ' :: collapseSpAux false (l.dropWhile isSpT) := by
  intro l
  induction l with
  | nil => rfl
  | cons a t ih =>
    by_cases ha : isSpT a = true
    · simp [collapseSpAux, List.dropWhile_cons, ha, ih]
    · simp [collapseSpAux, List.dropWhile_cons, ha]

theorem collapseSp_cons_sp {c : Char} {t : List Char} (h : isSpT c = true) :
    collapseSp (c :: t) = ' ' :: collapseSp (t.dropWhile isSpT) := by
  rw [collapseSp, collapseSpAux, if_pos h, collapseSpAux_true_eq]
  simp [collapseSp]

theorem collapseSp_cons_nonsp {c : Char} {t : List Char} (h : isSpT c = false) :
    collapseSp (c :: t) = c :: collapseSp t := by
  rw [collapseSp, collapseSpAux, if_neg (by simp [h])]
  simp [collapseSp]

theorem spOk_tail {a : Char} {t : List Char} (h : spOk (a :: t) = true) : spOk t = true := by
  rw [spOk, Bool.and_eq_true] at h
  exact h.2

theorem isSpT_false_parts {c : Char} (h : isSpT c = false) : c ≠ ' ' ∧ c ≠ '\t' := by
  simpa [isSpT] using h

theorem spHead_cons {a : Char} {x : List Char} : spHead (a :: x) = decide (a = ' ') := rfl

theorem spHead_collapseSp_drop (t : List Char) :
    spHead (collapseSp (t.dropWhile isSpT)) = false := by
  cases h : t.dropWhile isSpT with
  | nil => rfl
  | cons d u =>
    have hd : isSpT d = false := dropWhile_head_false t h
    rw [collapseSp_cons_nonsp hd, spHead_cons]
    simp [(isSpT_false_parts hd).1]

theorem spOk_collapseSp_bounded :
    ∀ (n : Nat) (l : List Char), l.length ≤ n → spOk (collapseSp l) = true := by
  intro n
  induction n with
  | zero =>
    intro l hl
    rw [Nat.le_zero, List.length_eq_zero] at hl
    subst hl
    rfl
  | succ n ih =>
    intro l hl
    rcases l with _ | ⟨c, t⟩
    · rfl
    · by_cases hc : isSpT c = true
      · rw [collapseSp_cons_sp hc, spOk]
        have hsuffix : (t.dropWhile isSpT).length ≤ t.length :=
          (List.dropWhile_suffix (l := t) isSpT).length_le
        have h2 := ih (t.dropWhile isSpT) (le_trans hsuffix (by simp at hl; omega))
        simp [spHead_collapseSp_drop t, h2]
      · have hc' : isSpT c = false := by simpa using hc
        rw [collapseSp_cons_nonsp hc', spOk]
        obtain ⟨h3, h4⟩ := isSpT_false_parts hc'
        simp [ih t (by simp at hl; omega), h3, h4]

theorem spOk_collapseSp (l : List Char) : spOk (collapseSp l) = true :=
  spOk_collapseSp_bounded l.length l le_rfl

theorem collapseSp_fix_bounded :
    ∀ (n : Nat) (l : List Char), l.length ≤ n → spOk l = true → collapseSp l = l := by
  intro n
  induction n with
  | zero =>
    intro l hl _
    rw [Nat.le_zero, List.length_eq_zero] at hl
    subst hl
    rfl
  | succ n ih =>
    intro l hl h
    rcases l with _ | ⟨c, t⟩
    · rfl
    · by_cases hsp : isSpT c = true
      · have hct : c ≠ '\t' := by
          intro hct
          rw [spOk, hct] at h
          simp at h
        have hc : c = ' ' := by
          rcases (by simpa [isSpT] using hsp : c = ' ' ∨ c = '\t') with h' | h'
          · exact h'
          · exact absurd h' hct
        have htail : spOk t = true := spOk_tail h
        have hshead : spHead t = false := by
          by_contra hsh
          rw [Bool.not_eq_false] at hsh
          rw [spOk, hc, hsh] at h
          simp at h
        have hdw : t.dropWhile isSpT = t := by
          cases t with
          | nil => rfl
          | cons d u =>
            have hd1 : d ≠ ' ' := by
              intro hd
              rw [spHead_cons, hd] at hshead
              simp at hshead
            have hd2 : d ≠ '\t' := by
              intro hd
              rw [spOk, hd] at htail
              simp at htail
            rw [List.dropWhile_cons, if_neg (by simp [isSpT, hd1, hd2])]
        rw [collapseSp_cons_sp hsp, hdw, hc, ih t (by simp at hl; omega) htail]
      · have hsp' : isSpT c = false := by simpa using hsp
        rw [collapseSp_cons_nonsp hsp', ih t (by simp at hl; omega) (spOk_tail h)]

theorem collapseSp_fix (l : List Char) (h : spOk l = true) : collapseSp l = l :=
  collapseSp_fix_bounded l.length l le_rfl h

theorem nl2_nil : nl2 [] = false := rfl

theorem nl2_single {a : Char} : nl2 [a] = false := rfl

theorem nl2_collapseSp {t : List Char} (h : nl2 t = false) :
    nl2 (collapseSp t) = false := by
  rcases t with _ | ⟨a, u⟩
  · rfl
  · by_cases ha : isSpT a = true
    · rw [collapseSp_cons_sp ha]
      exact nl2_cons_ne (by decide)
    · have ha' : isSpT a = false := by simpa using ha
      rw [collapseSp_cons_nonsp ha']
      by_cases han : a = '\n'
      · subst han
        rcases u with _ | ⟨b, v⟩
        · rfl
        · have hb : b ≠ '\n' := by
            rw [nl2_cons_cons] at h
            simpa using h
          by_cases hbs : isSpT b = true
          · rw [collapseSp_cons_sp hbs, nl2_cons_cons]
            decide
          · have hbs' : isSpT b = false := by simpa using hbs
            rw [collapseSp_cons_nonsp hbs', nl2_cons_cons]
            simp [hb]
      · exact nl2_cons_ne han

theorem noTriple_dropWhile (q : Char → Bool) :
    ∀ l : List Char, noTriple l = true → noTriple (l.dropWhile q) = true := by
  intro l
  induction l with
  | nil => intro h; exact h
  | cons a t ih =>
    intro h
    rw [List.dropWhile_cons]
    split
    · exact ih (noTriple_tail h)
    · exact h

theorem spOk_dropWhile (q : Char → Bool) :
    ∀ l : List Char, spOk l = true → spOk (l.dropWhile q) = true := by
  intro l
  induction l with
  | nil => intro h; exact h
  | cons a t ih =>
    intro h
    rw [List.dropWhile_cons]
    split
    · exact ih (spOk_tail h)
    · exact h

theorem nl2_take {t : List Char} {n : Nat} (h : nl2 (t.take n) = true) : nl2 t = true := by
  rcases t with _ | ⟨a, u⟩
  · simp [nl2_nil] at h
  · rcases u with _ | ⟨b, v⟩
    · rcases n with _ | n
      · simp [nl2_nil] at h
      · simp [List.take_succ_cons, nl2_single] at h
    · rcases n with _ | n
      · simp [nl2_nil] at h
      · rcases n with _ | n
        · simp [List.take_succ_cons, nl2_single] at h
        · rw [List.take_succ_cons, List.take_succ_cons, nl2_cons_cons] at h
          rw [nl2_cons_cons]
          exact h

theorem noTriple_take : ∀ (l : List Char) (n : Nat),
    noTriple l = true → noTriple (l.take n) = true := by
  intro l
  induction l with
  | nil => intro n h; simpa using h
  | cons a t ih =>
    intro n h
    rcases n with _ | n
    · rfl
    · rw [List.take_succ_cons]
      by_cases ha : a = '\n'
      · subst ha
        rw [noTriple] at h ⊢
        simp only [decide_True, Bool.true_and, Bool.and_eq_true, Bool.not_eq_true'] at h ⊢
        refine ⟨?_, ih n h.2⟩
        cases hnl : nl2 (t.take n) with
        | false => rfl
        | true => exact absurd (nl2_take hnl) (by simp [h.1])
      · rw [noTriple_cons_ne ha] at h ⊢
        exact ih n h

theorem spHead_take {t : List Char} {n : Nat} (h : spHead (t.take n) = true) :
    spHead t = true := by
  rcases t with _ | ⟨a, u⟩
  · simpa using h
  · rcases n with _ | n
    · simp [spHead] at h
    · rw [List.take_succ_cons, spHead_cons] at h
      rw [spHead_cons]
      exact h

theorem spOk_take : ∀ (l : List Char) (n : Nat), spOk l = true → spOk (l.take n) = true := by
  intro l
  induction l with
  | nil => intro n h; simpa using h
  | cons a t ih =>
    intro n h
    rcases n with _ | n
    · rfl
    · rw [List.take_succ_cons, spOk]
      rw [spOk] at h
      rw [Bool.and_eq_true] at h ⊢
      obtain ⟨h12, h3⟩ := h
      rw [Bool.and_eq_true] at h12 ⊢
      obtain ⟨h1, h2⟩ := h12
      refine ⟨⟨h1, ?_⟩, ih n h3⟩
      cases hsh : spHead (t.take n) with
      | false => simp [hsh]
      | true =>
        rw [spHead_take hsh] at h2
        simpa using h2

theorem trimList_eq_take (l : List Char) :
    trimList l = (l.dropWhile jsWs).take (trimList l).length := by
  obtain ⟨t, ht⟩ := trimList_front l
  rw [← ht, List.take_left]

theorem noTriple_trimList {l : List Char} (h : noTriple l = true) :
    noTriple (trimList l) = true := by
  rw [trimList_eq_take]
  exact noTriple_take _ _ (noTriple_dropWhile _ _ h)

theorem spOk_trimList {l : List Char} (h : spOk l = true) :
    spOk (trimList l) = true := by
  rw [trimList_eq_take]
  exact spOk_take _ _ (spOk_dropWhile _ _ h)

theorem noTriple_collapseSp_bounded :
    ∀ (n : Nat) (l : List Char), l.length ≤ n → noTriple l = true →
      noTriple (collapseSp l) = true := by
  intro n
  induction n with
  | zero =>
    intro l hl _
    rw [Nat.le_zero, List.length_eq_zero] at hl
    subst hl
    rfl
  | succ n ih =>
    intro l hl h
    rcases l with _ | ⟨c, t⟩
    · rfl
    · by_cases hc : isSpT c = true
      · rw [collapseSp_cons_sp hc, noTriple_cons_ne (by decide)]
        have hsuffix : (t.dropWhile isSpT).length ≤ t.length :=
          (List.dropWhile_suffix (l := t) isSpT).length_le
        exact ih _ (le_trans hsuffix (by simp at hl; omega))
          (noTriple_dropWhile _ _ (noTriple_tail h))
      · have hc' : isSpT c = false := by simpa using hc
        rw [collapseSp_cons_nonsp hc']
        by_cases han : c = '\n'
        · subst han
          rw [noTriple] at h ⊢
          simp only [decide_True, Bool.true_and, Bool.and_eq_true, Bool.not_eq_true'] at h ⊢
          exact ⟨nl2_collapseSp h.1, ih t (by simp at hl; omega) h.2⟩
        · rw [noTriple_cons_ne han]
          exact ih t (by simp at hl; omega) (noTriple_tail h)

theorem noTriple_collapseSp {l : List Char} (h : noTriple l = true) :
    noTriple (collapseSp l) = true :=
  noTriple_collapseSp_bounded l.length l le_rfl h

/-- C7: normalization is not idempotent: `"a\r\r\nb"` normalizes to
`"a\r\nb"` (the CRLF pass creates a fresh CRLF out of `\r\r\n`), and the
second normalization differs, giving `"a\nb"`. -/
theorem c7_counterexample :
    normalizeText (normalizeText "a\r\r\nb".data) ≠ normalizeText "a\r\r\nb".data := by
  decide

/-- C7 (amended): on every input containing no carriage return, the
normalization chain is idempotent. -/
theorem c7_amended :
    ∀ l : List Char, '\r' ∉ l → normalizeText (normalizeText l) = normalizeText l := by
  intro l hcr
  have hnoCR : '\r' ∉ normalizeText l := no_cr_normalizeText hcr
  have hNT : noTriple (normalizeText l) = true := by
    unfold normalizeText
    rw [replCRLF_id_of_no_cr l hcr]
    exact noTriple_trimList (noTriple_collapseSp (noTriple_collapseNLAux l 0))
  have hSP : spOk (normalizeText l) = true := by
    unfold normalizeText
    exact spOk_trimList (spOk_collapseSp _)
  have htr : trimList (normalizeText l) = normalizeText l := by
    unfold normalizeText
    exact trimList_trimList _
  calc normalizeText (normalizeText l)
      = trimList (collapseSp (collapseNL (replCRLF (normalizeText l)))) := rfl
    _ = trimList (collapseSp (collapseNL (normalizeText l))) := by
        rw [replCRLF_id_of_no_cr _ hnoCR]
    _ = trimList (collapseSp (normalizeText l)) := by rw [collapseNL_fix _ hNT]
    _ = trimList (normalizeText l) := by rw [collapseSp_fix _ hSP]
    _ = normalizeText l := htr

/-- C7 witness: a concrete CR-free input on which normalization is
idempotent. -/
theorem c7_amended_witness :
    '\r' ∉ "a  b\n\n\n\nc".data ∧
    normalizeText (normalizeText "a  b\n\n\n\nc".data) =
      normalizeText "a  b\n\n\n\nc".data :=
  ⟨by decide, c7_amended _ (by decide)⟩
